import Mathlib

/-
Verification development for the document-editor field-extraction pipeline.

The embedding models JavaScript strings as `List Char` (a `String` wrapper is
kept where a record field is naturally a string).  Regular-expression tests
from the source are translated into executable character-list functions; each
translation is annotated with the regex it embeds.  Loops whose termination
is not structural are written with an explicit fuel argument that is always
large enough (fuel bounds are noted at each definition).
-/

/-! ## JavaScript primitives -/

/-- Character class of the JavaScript regex escape `\s` (whitespace). -/
def jsSpace (c : Char) : Bool :=
  c = ' ' || c = '\t' || c = '\n' || c = '\r' || c = '\x0b' || c = '\x0c' ||
  c = '\u00A0' || c = '\u1680' || ('\u2000' ≤ c && c ≤ '\u200A') ||
  c = '\u2028' || c = '\u2029' || c = '\u202F' || c = '\u205F' || c = '\u3000' || c = '\uFEFF'

/-- Character class of the JavaScript regex escape `\w` (word characters). -/
def jsWordChar (c : Char) : Bool :=
  c.isAlpha || c.isDigit || c = '_'

/-- JavaScript `String.prototype.trim`: strip whitespace from both ends. -/
def jsTrimL (l : List Char) : List Char :=
  ((l.dropWhile jsSpace).reverse.dropWhile jsSpace).reverse

/-- Global replacement of every maximal run of characters satisfying `p` by the
single character `rep` (the shape of `replace` with patterns such as
the whitespace-run regexes in `preprocessDocument`). -/
def collapseRuns (p : Char → Bool) (rep : Char) : List Char → List Char
  | [] => []
  | c :: cs =>
    if p c then
      match cs with
      | [] => [rep]
      | d :: _ => if p d then collapseRuns p rep cs else rep :: collapseRuns p rep cs
    else c :: collapseRuns p rep cs

/-- Helper for the pattern of two newlines joined by whitespace: given the text
after an opening newline, returns the text after the last newline reachable
through whitespace, or `none` when no further newline is reachable. -/
def wsThenNl : List Char → Option (List Char)
  | [] => none
  | c :: cs =>
    if c = '\n' then
      match wsThenNl cs with
      | some rest => some rest
      | none => some cs
    else if jsSpace c then wsThenNl cs
    else none

/-- Global replacement embedding the second preprocessing step: a newline, then
greedy whitespace ending at a further newline, is replaced by one newline.
`fuel` at least the list length suffices (every step consumes a character). -/
def squashNlGo : Nat → List Char → List Char
  | 0, l => l
  | _ + 1, [] => []
  | fuel + 1, c :: cs =>
    if c = '\n' then
      match wsThenNl cs with
      | some rest => '\n' :: squashNlGo fuel rest
      | none => c :: squashNlGo fuel cs
    else c :: squashNlGo fuel cs

/-- Character class of the source regex character set of whitespace other than
carriage return and newline. -/
def spaceNotNl (c : Char) : Bool :=
  jsSpace c && !(c = '\r') && !(c = '\n')

/-- Embeds `preprocessDocument` from the analysis route: collapse whitespace
runs to one space, collapse blank-line runs, collapse space runs, then trim. -/
def preprocessDocument (text : List Char) : List Char :=
  jsTrimL (collapseRuns spaceNotNl ' '
    (squashNlGo (collapseRuns jsSpace ' ' text).length (collapseRuns jsSpace ' ' text)))

/-! ## Chunker -/

/-- Sentence terminators of the chunker regex. -/
def isTerm (c : Char) : Bool :=
  c = '.' || c = '!' || c = '?'

/-- Embeds the global match of the sentence regex (one or more non-terminators
followed by one or more terminators): left-to-right, non-overlapping, greedy;
characters not covered by any match are skipped.  `fuel` at least the list
length suffices (each produced match consumes at least one character). -/
def matchSentencesGo : Nat → List Char → List (List Char)
  | 0, _ => []
  | _ + 1, [] => []
  | fuel + 1, l =>
    let l1 := l.dropWhile isTerm
    let a := l1.takeWhile (fun c => !isTerm c)
    let r := l1.dropWhile (fun c => !isTerm c)
    match r with
    | [] => []
    | _ :: _ => (a ++ r.takeWhile isTerm) :: matchSentencesGo fuel (r.dropWhile isTerm)

/-- The chunker's sentence list: the regex matches, or the whole text as one
"sentence" when the regex finds no match. -/
def sentencesOf (text : List Char) : List (List Char) :=
  let ms := matchSentencesGo text.length text
  if ms.isEmpty then [text] else ms

/-- Characters per chunk in the analysis route. -/
def CHUNK_SIZE : Nat := 2000

/-- Embeds the sentence-accumulation loop of `splitDocumentIntoChunks`: a
buffer is flushed (trimmed) whenever appending the next sentence would pass
`CHUNK_SIZE`, and the final non-empty buffer is flushed unconditionally. -/
def buildChunksGo : List (List Char) → List Char → List (List Char) → List (List Char)
  | [], currentChunk, chunks =>
    if currentChunk ≠ [] then chunks ++ [jsTrimL currentChunk] else chunks
  | sentence :: rest, currentChunk, chunks =>
    if (currentChunk ++ sentence).length > CHUNK_SIZE then
      buildChunksGo rest sentence
        (if currentChunk ≠ [] then chunks ++ [jsTrimL currentChunk] else chunks)
    else buildChunksGo rest (currentChunk ++ sentence) chunks

/-- Embeds `splitDocumentIntoChunks` from the analysis route. -/
def splitDocumentIntoChunks (text : List Char) : List (List Char) :=
  buildChunksGo (sentencesOf text) [] []

/-! ## Field data model -/

/-- A field candidate as returned by the extraction capability (the source's
field type with the locally computed properties omitted). -/
structure FieldInput where
  name : String
  type : String
  description : String
  placeholder : String
  required : Bool
  replacement : String
deriving DecidableEq

/-- A field candidate together with its validator-assigned confidence. -/
structure ValidatedField extends FieldInput where
  confidence : String
deriving DecidableEq

/-- The merged-output field shape: candidate data, confidence, relationships. -/
structure IdentifiedField extends ValidatedField where
  relationships : List String
deriving DecidableEq

/-! ## Type-validation patterns

Each test embeds one of the source's anchored regexes over the whole string. -/

/-- Embeds the anchored date regex: month 01-12, dash, day 01-31, dash, four
digits. -/
def dateTest (s : String) : Bool :=
  match s.data with
  | [m1, m2, '-', d1, d2, '-', y1, y2, y3, y4] =>
    ((m1 = '0' && '1' ≤ m2 && m2 ≤ '9') || (m1 = '1' && '0' ≤ m2 && m2 ≤ '2')) &&
    ((d1 = '0' && '1' ≤ d2 && d2 ≤ '9') || ((d1 = '1' || d1 = '2') && d2.isDigit) ||
      (d1 = '3' && (d2 = '0' || d2 = '1'))) &&
    (y1.isDigit && y2.isDigit && y3.isDigit && y4.isDigit)
  | _ => false

/-- No character of the email regex classes may be whitespace or an at sign. -/
def emailChar (c : Char) : Bool :=
  !jsSpace c && !(c = '@')

/-- A dot occurs strictly inside the list (neither first nor last position). -/
def hasInteriorDot (l : List Char) : Bool :=
  ((l.drop 1).take (l.length - 2)).any (fun c => c = '.')

/-- Embeds the anchored email regex: a run of non-space non-at characters, an
at sign, then a run containing a dot at an interior position.  Because the
character classes exclude the at sign, the split at the unique at sign is the
only possible decomposition. -/
def emailTest (s : String) : Bool :=
  let a := s.data.takeWhile (fun c => !(c = '@'))
  match s.data.dropWhile (fun c => !(c = '@')) with
  | [] => false
  | _ :: rem =>
    !a.isEmpty && a.all (fun c => !jsSpace c) &&
    !rem.isEmpty && rem.all emailChar && hasInteriorDot rem

/-- Character set of the phone regex: digits, whitespace, dash, parentheses. -/
def phoneChar (c : Char) : Bool :=
  c.isDigit || jsSpace c || c = '-' || c = '(' || c = ')'

/-- Embeds the anchored phone regex: an optional leading plus sign, then at
least ten characters from the phone character set. -/
def phoneTest (s : String) : Bool :=
  let cs :=
    match s.data with
    | '+' :: rest => rest
    | cs => cs
  decide (10 ≤ cs.length) && cs.all phoneChar

/-- Embeds the anchored number regex: digits with an optional dot-digits tail. -/
def numberTest (s : String) : Bool :=
  let intPart := s.data.takeWhile Char.isDigit
  let rest := s.data.dropWhile Char.isDigit
  !intPart.isEmpty &&
    (rest.isEmpty ||
      match rest with
      | '.' :: frac => !frac.isEmpty && frac.all Char.isDigit
      | _ => false)

/-- Embeds the anchored address regex: one or more word characters,
whitespace, commas, dots or dashes. -/
def addressTest (s : String) : Bool :=
  !s.data.isEmpty && s.data.all (fun c => jsWordChar c || jsSpace c || c = ',' || c = '.' || c = '-')

/-- Embeds the `fieldTypeValidation` pattern table of the analysis route. -/
def fieldTypeValidation (type : String) : Option (String → Bool) :=
  if type = "date" then some dateTest
  else if type = "email" then some emailTest
  else if type = "phone" then some phoneTest
  else if type = "number" then some numberTest
  else if type = "address" then some addressTest
  else none

/-- Embeds `validateFieldType`: fields whose type has a pattern that the
replacement text fails get confidence low, all others get high. -/
def validateFieldType (field : FieldInput) : ValidatedField :=
  match fieldTypeValidation field.type with
  | some pattern =>
    if !pattern field.replacement then { toFieldInput := field, confidence := "low" }
    else { toFieldInput := field, confidence := "high" }
  | none => { toFieldInput := field, confidence := "high" }

/-! ## JavaScript Map as an insertion-ordered key-value list -/

/-- JavaScript `Map.prototype.set`: overwrite the value in place when the key
is present, otherwise append the new entry. -/
def jsMapSet {α : Type} (m : List (String × α)) (k : String) (v : α) : List (String × α) :=
  if m.any (fun p => p.1 = k) then m.map (fun p => if p.1 = k then (k, v) else p)
  else m ++ [(k, v)]

/-- The JavaScript `Map` built from an entry list (`new Map(pairs)`): entries
are inserted in order, so the first occurrence of a key fixes its position and
the last occurrence fixes its value. -/
def jsMapOfList {α : Type} (l : List (String × α)) : List (String × α) :=
  l.foldl (fun m p => jsMapSet m p.1 p.2) []

/-- The key list of a map, in insertion order. -/
def keysOf {α : Type} (m : List (String × α)) : List String :=
  m.map Prod.fst

/-- JavaScript `Map.prototype.get` as an option. -/
def jsMapLookup {α : Type} (m : List (String × α)) (k : String) : Option α :=
  (m.find? (fun p => p.1 = k)).map Prod.snd

/-! ## Merger, relationship linker -/

/-- The deduplicated field list of `validateFields`: the values of the map
keyed by replacement text, in first-occurrence key order with last-write-wins
values. -/
def uniqueFieldsOf (fields : List FieldInput) : List FieldInput :=
  (jsMapOfList (fields.map (fun f => (f.replacement, f)))).map Prod.snd

/-- JavaScript `Set` built from a list: first occurrences, in order.  `fuel`
at least the list length suffices. -/
def jsSetListGo {α : Type} [DecidableEq α] : Nat → List α → List α
  | 0, l => l
  | _ + 1, [] => []
  | fuel + 1, x :: xs => x :: jsSetListGo fuel (xs.filter (fun y => decide (y ≠ x)))

/-- JavaScript `Set` built from a list, read back as a list. -/
def jsSetList {α : Type} [DecidableEq α] (l : List α) : List α :=
  jsSetListGo l.length l

/-- JavaScript `String.prototype.split` on runs of separator characters: the
pieces are the maximal runs of kept characters, with an empty piece at an end
that begins or finishes with a separator.  `fuel` at least the list length
suffices (each separator run consumes at least one character). -/
def splitRunsGo (keep : Char → Bool) : Nat → List Char → List (List Char)
  | 0, l => [l]
  | fuel + 1, l =>
    let piece := l.takeWhile keep
    match l.dropWhile keep with
    | [] => [piece]
    | rest => piece :: splitRunsGo keep fuel (rest.dropWhile (fun c => !keep c))

/-- The token list of an anchor as computed by the linker: lowercase the
anchor, then split on runs of non-word characters. -/
def anchorWords (s : String) : List (List Char) :=
  splitRunsGo jsWordChar (s.data.map Char.toLower).length (s.data.map Char.toLower)

/-- The number of common words between two anchors, computed as in the source:
the token set of the first, filtered by membership in the token set of the
second. -/
def commonWordsCount (a b : String) : Nat :=
  ((jsSetList (anchorWords a)).filter (fun w => (anchorWords b).contains w)).length

/-- The linker's relatedness test: at least two common words. -/
def relatedAnchors (a b : String) : Bool :=
  decide (2 ≤ commonWordsCount a b)

/-- Embeds `validateFields`: deduplicate by replacement, validate each field's
type, and attach the names of the related fields.  The source compares fields
by object identity; on the deduplicated list (whose elements have pairwise
distinct replacements) identity agrees with structural equality. -/
def validateFields (fields : List FieldInput) : List IdentifiedField :=
  let uniqueFields := uniqueFieldsOf fields
  uniqueFields.map (fun field =>
    let validatedField := validateFieldType field
    let relationships :=
      ((uniqueFields.filter (fun f => decide (f ≠ field))).filter
        (fun f => relatedAnchors field.replacement f.replacement)).map (fun f => f.name)
    { toValidatedField := validatedField
      relationships := if relationships.length > 0 then relationships else [] })

/-- Embeds `mergeFieldResults`: flatten the per-chunk candidate lists and run
`validateFields` on the result. -/
def mergeFieldResults (results : List (List FieldInput)) : List IdentifiedField :=
  validateFields results.flatten

/-! ## Analysis endpoint -/

/-- The join of a parallel batch with all-or-nothing semantics (the shape of
`Promise.all`): the first error aborts the batch, otherwise all values. -/
def promiseAll {ε α : Type} : List (Except ε α) → Except ε (List α)
  | [] => .ok []
  | x :: xs =>
    match x with
    | .error e => .error e
    | .ok a => (promiseAll xs).map (fun l => a :: l)

/-- Response of the analysis endpoint: a merged field list with the processed
chunk count, or an error body with its HTTP status. -/
inductive AnalyzeResponse where
  | ok (fields : List IdentifiedField) (chunksProcessed : Nat)
  | err (error : String) (status : Nat)
deriving DecidableEq

/-- Embeds the POST handler of the analysis route, with the extraction
capability abstracted as a per-chunk function that may fail.  Timing metadata
is omitted; a missing document text is the falsy (empty) string. -/
def postAnalyze (extract : List Char → Except String (List FieldInput))
    (documentText : List Char) : AnalyzeResponse :=
  if documentText.isEmpty then .err "Document text is required" 400
  else
    let processedText := preprocessDocument documentText
    let chunks := splitDocumentIntoChunks processedText
    match promiseAll (chunks.map extract) with
    | .error _ => .err "Failed to analyze document" 500
    | .ok results => .ok (mergeFieldResults results) chunks.length

/-! ## Placeholder injector -/

/-- Boolean prefix test on character lists. -/
def startsWithL : List Char → List Char → Bool
  | [], _ => true
  | _ :: _, [] => false
  | a :: as, c :: cs => a = c && startsWithL as cs

/-- Try the alternation's alternatives in order at the current position,
returning the matched anchor, its placeholder, and the rest of the input. -/
def tryMatch (alts : List (List Char × List Char)) (l : List Char) :
    Option (List Char × List Char × List Char) :=
  alts.findSome? (fun ap =>
    if startsWithL ap.1 l then some (ap.1, ap.2, l.drop ap.1.length) else none)

/-- The global-replace scan of the injector: at each position try the
alternatives in order; on a match emit the match, a space and the placeholder
and continue after the match; a zero-length match additionally passes one
input character through (the engine's forced advance); otherwise copy one
character.  `fuel` at least the input length plus one suffices. -/
def scanGo (alts : List (List Char × List Char)) : Nat → List Char → List Char
  | 0, l => l
  | fuel + 1, l =>
    match tryMatch alts l with
    | some (a, p, rest) =>
      if a.isEmpty then
        match l with
        | [] => ' ' :: p
        | c :: cs => ' ' :: (p ++ c :: scanGo alts fuel cs)
      else a ++ ' ' :: (p ++ scanGo alts fuel rest)
    | none =>
      match l with
      | [] => []
      | c :: cs => c :: scanGo alts fuel cs

/-- The alternation built by the injector: the map from replacement anchors to
fields gives the escaped anchors in key order, each paired with the looked-up
placeholder (a missing lookup falls back to the empty string). -/
def anchorAlternation (fields : List IdentifiedField) : List (List Char × List Char) :=
  (jsMapOfList (fields.map (fun f => (f.replacement, f)))).map
    (fun p => (p.1.data, p.2.placeholder.data))

/-- Embeds `applyPlaceholdersOptimized` (the body is shared with the earlier
`applyPlaceholders` helper): build the alternation over all anchors and
globally replace each match by itself, a space and its field's placeholder.
Joining zero alternatives yields the empty pattern, which matches the empty
string at every position with an empty placeholder lookup. -/
def applyPlaceholdersOptimized (content : List Char) (fields : List IdentifiedField) : List Char :=
  let alts := anchorAlternation fields
  let alts := if alts.isEmpty then [(([] : List Char), ([] : List Char))] else alts
  scanGo alts (content.length + 1) content

/-! ## Field-application session -/

/-- The client state the field-application callback reads and writes: the
rendered content and the one-shot guard flag. -/
structure SessionState where
  content : List Char
  placeholdersApplied : Bool
deriving DecidableEq

/-- Embeds the `applyPlaceholders` callback of the field manager (with the
document container present): the returned string is the toast title reported
to the user. -/
def applyPlaceholdersSession (identifiedFields : List IdentifiedField) (st : SessionState) :
    String × SessionState :=
  if identifiedFields.length = 0 then ("No Fields", st)
  else if st.placeholdersApplied then ("Placeholders Already Applied", st)
  else ("Placeholders Applied",
    { content := applyPlaceholdersOptimized st.content identifiedFields
      placeholdersApplied := true })

/-! ## Document cache -/

/-- Decimal digit character. -/
def decDigitChar (d : Nat) : Char :=
  Char.ofNat (48 + d)

/-- Decimal rendering of a natural number (the template-literal rendering of
the byte length).  `fuel` greater than the number suffices. -/
def decReprGo : Nat → Nat → List Char
  | 0, _ => []
  | fuel + 1, n =>
    if n < 10 then [decDigitChar n]
    else decReprGo fuel (n / 10) ++ [decDigitChar (n % 10)]

/-- Decimal rendering of a natural number. -/
def decRepr (n : Nat) : List Char :=
  decReprGo (n + 1) n

/-- Decimal value of a digit list (used to show the rendering is injective). -/
def decVal (l : List Char) : Nat :=
  l.foldl (fun a c => 10 * a + (c.toNat - 48)) 0

/-- The cache key template of `getCachedDocument`: file name, dash, byte
length. -/
def cacheKey (fileName : String) (byteLength : Nat) : String :=
  fileName ++ "-" ++ String.mk (decRepr byteLength)

/-- Bytes per rendering chunk. -/
def DOC_CHUNK_SIZE : Nat := 1024 * 1024

/-- Embeds `splitArrayBuffer`: slice the buffer into `chunkSize`-byte pieces.
`fuel` at least the buffer length suffices for any positive chunk size. -/
def splitArrayBufferGo (chunkSize : Nat) : Nat → List Nat → List (List Nat)
  | 0, _ => []
  | _ + 1, [] => []
  | fuel + 1, buffer => buffer.take chunkSize :: splitArrayBufferGo chunkSize fuel (buffer.drop chunkSize)

/-- Embeds `splitArrayBuffer` at the source's call shape. -/
def splitArrayBuffer (buffer : List Nat) (chunkSize : Nat) : List (List Nat) :=
  splitArrayBufferGo chunkSize buffer.length buffer

/-- Embeds `getCachedDocument`, with the rendering capability abstracted: on a
cache hit return the stored text, otherwise render the buffer chunkwise, join,
store and return.  Returns the text and the updated cache. -/
def getCachedDocument (render : List Nat → String) (cache : List (String × String))
    (docxContent : List Nat) (fileName : String) : String × List (String × String) :=
  let key := cacheKey fileName docxContent.length
  match jsMapLookup cache key with
  | some cached => (cached, cache)
  | none =>
    let chunks := splitArrayBuffer docxContent DOC_CHUNK_SIZE
    let processedText := String.join (chunks.map render)
    (processedText, jsMapSet cache key processedText)

/-- Embeds the cleanup step of the field manager's effect teardown: when the
cache has grown past 100 entries, delete the first 50 keys in insertion
order. -/
def documentCacheCleanup (cache : List (String × String)) : List (String × String) :=
  if cache.length > 100 then
    ((keysOf cache).take 50).foldl (fun m k => m.filter (fun p => decide (p.1 ≠ k))) cache
  else cache

/-! ## Spec-side definitions used to compare the code against claim wording -/

/-- Follows the claim's words for the empty-field-list injection: the input
with one space inserted at every character boundary. -/
def claimSpacedBoundaries : List Char → List Char
  | [] => [' ']
  | c :: cs => ' ' :: c :: claimSpacedBoundaries cs

/-- Follows the claim's words for relationship linking: the case-insensitive
whitespace-delimited tokens of an anchor (split on whitespace runs, empty
pieces discarded). -/
def specWsTokens (s : String) : List (List Char) :=
  (splitRunsGo (fun c => !jsSpace c) (s.data.map Char.toLower).length
    (s.data.map Char.toLower)).filter (fun t => decide (t ≠ []))

/-- Follows the claim's words: the number of distinct case-insensitive
whitespace-delimited tokens shared by two anchors. -/
def specWsSharedCount (a b : String) : Nat :=
  ((jsSetList (specWsTokens a)).filter (fun w => (specWsTokens b).contains w)).length

/-- Relational specification of one left-to-right injection pass: the output
is the input with a space and the matching placeholder appended after each
matched anchor, every character outside a match copied unchanged, and no
anchor occurrence starting at any unmatched position. -/
inductive Injects (alts : List (List Char × List Char)) : List Char → List Char → Prop where
  | nil : Injects alts [] []
  | keep (c : Char) (l out : List Char)
      (hnone : ∀ ap ∈ alts, ¬ ∃ t, ap.1 ++ t = c :: l)
      (h : Injects alts l out) : Injects alts (c :: l) (c :: out)
  | mark (a p l out : List Char)
      (hap : (a, p) ∈ alts)
      (h : Injects alts l out) : Injects alts (a ++ l) (a ++ ' ' :: (p ++ out))

/-! ## Concrete values used by witnesses and counterexamples -/

/-- A candidate with anchor "X:" from an earlier chunk. -/
abbrev exDupEarlier : FieldInput :=
  { name := "n1"
    type := "text"
    description := "d1"
    placeholder := "[[A]]"
    required := true
    replacement := "X:" }

/-- A candidate with the same anchor "X:" from a later chunk. -/
abbrev exDupLater : FieldInput :=
  { name := "n2"
    type := "email"
    description := "d2"
    placeholder := "[[B]]"
    required := false
    replacement := "X:" }

/-- An email-typed candidate whose anchor has no at sign. -/
abbrev exEmailNoAt : FieldInput :=
  { name := "email"
    type := "email"
    description := "email"
    placeholder := "[[EMAIL]]"
    required := true
    replacement := "Email: " }

/-- An email-typed candidate whose anchor is a label followed by an address. -/
abbrev exEmailLabeled : FieldInput :=
  { name := "email"
    type := "email"
    description := "email"
    placeholder := "[[EMAIL]]"
    required := true
    replacement := "Email: john@example.com" }

/-- A text-typed candidate (a type without a validation pattern). -/
abbrev exTextField : FieldInput :=
  { name := "comments"
    type := "text"
    description := "comments"
    placeholder := "[[COMMENTS]]"
    required := false
    replacement := "Comments:" }

/-- The merged output of validating the email field with the at-less anchor. -/
abbrev exEmailNoAtOut : IdentifiedField :=
  { name := "email"
    type := "email"
    description := "email"
    placeholder := "[[EMAIL]]"
    required := true
    replacement := "Email: "
    confidence := "low"
    relationships := [] }

/-- A candidate anchored at "Contact Name:". -/
abbrev exContactName : FieldInput :=
  { name := "contact_name"
    type := "text"
    description := "name"
    placeholder := "[[CONTACT_NAME]]"
    required := true
    replacement := "Contact Name:" }

/-- A candidate anchored at "Contact Phone:". -/
abbrev exContactPhone : FieldInput :=
  { name := "contact_phone"
    type := "phone"
    description := "phone"
    placeholder := "[[CONTACT_PHONE]]"
    required := true
    replacement := "Contact Phone:" }

/-- A merged field anchored at "Name:". -/
abbrev exNameField : IdentifiedField :=
  { name := "name"
    type := "text"
    description := "name"
    placeholder := "[[N]]"
    required := true
    replacement := "Name:"
    confidence := "high"
    relationships := [] }

/-- A merged field anchored at "Full Name:". -/
abbrev exFullNameField : IdentifiedField :=
  { name := "full_name"
    type := "text"
    description := "name"
    placeholder := "[[FULL_NAME]]"
    required := true
    replacement := "Full Name:"
    confidence := "high"
    relationships := [] }

/-- One hundred and one pairwise distinct document identities (same file name,
pairwise distinct byte lengths). -/
abbrev exDocs : List (String × List Nat) :=
  (List.range 101).map (fun n => ("f", List.replicate n 0))

/-- A trivial rendering capability for witnesses. -/
abbrev exRender : List Nat → String := fun _ => ""

/-- An extraction capability that fails on every chunk. -/
abbrev exExtractFail : List Char → Except String (List FieldInput) :=
  fun _ => Except.error "boom"

/-- A fresh editing session whose guard is not yet set. -/
abbrev exSession : SessionState :=
  { content := "Full Name: ____".data
    placeholdersApplied := false }

/-! ## Lemmas about the JavaScript map embedding -/

theorem jsMapSet_of_mem {α : Type} {m : List (String × α)} {k : String} (v : α)
    (h : k ∈ keysOf m) :
    jsMapSet m k v = m.map (fun p => if p.1 = k then (k, v) else p) := by
  unfold jsMapSet
  rw [if_pos]
  rw [List.any_eq_true]
  obtain ⟨p, hp, he⟩ := List.mem_map.1 h
  exact ⟨p, hp, by simp [he]⟩

theorem jsMapSet_of_not_mem {α : Type} {m : List (String × α)} {k : String} (v : α)
    (h : k ∉ keysOf m) :
    jsMapSet m k v = m ++ [(k, v)] := by
  unfold jsMapSet
  rw [if_neg]
  simp only [List.any_eq_true, decide_eq_true_eq, not_exists]
  intro p hp
  exact h (List.mem_map.2 ⟨p, hp.1, hp.2⟩)

theorem keysOf_jsMapSet_of_mem {α : Type} {m : List (String × α)} {k : String} (v : α)
    (h : k ∈ keysOf m) : keysOf (jsMapSet m k v) = keysOf m := by
  rw [jsMapSet_of_mem v h]
  unfold keysOf
  rw [List.map_map]
  apply List.map_congr_left
  intro p _
  by_cases hc : p.1 = k <;> simp [hc]

theorem keysOf_jsMapSet_of_not_mem {α : Type} {m : List (String × α)} {k : String} (v : α)
    (h : k ∉ keysOf m) : keysOf (jsMapSet m k v) = keysOf m ++ [k] := by
  rw [jsMapSet_of_not_mem v h]
  simp [keysOf]

theorem mem_keysOf_jsMapSet {α : Type} {m : List (String × α)} {k : String} (v : α) (a : String) :
    a ∈ keysOf (jsMapSet m k v) ↔ a ∈ keysOf m ∨ a = k := by
  by_cases h : k ∈ keysOf m
  · rw [keysOf_jsMapSet_of_mem v h]
    constructor
    · exact Or.inl
    · rintro (ha | rfl)
      · exact ha
      · exact h
  · rw [keysOf_jsMapSet_of_not_mem v h]
    simp

theorem keysOf_nodup_jsMapSet {α : Type} {m : List (String × α)} {k : String} (v : α)
    (h : (keysOf m).Nodup) : (keysOf (jsMapSet m k v)).Nodup := by
  by_cases hk : k ∈ keysOf m
  · rw [keysOf_jsMapSet_of_mem v hk]; exact h
  · rw [keysOf_jsMapSet_of_not_mem v hk]
    simp [List.nodup_append, h, hk]

theorem keysOf_foldl_nodup {α : Type} :
    ∀ (l : List (String × α)) (m : List (String × α)), (keysOf m).Nodup →
      (keysOf (l.foldl (fun m p => jsMapSet m p.1 p.2) m)).Nodup := by
  intro l
  induction l with
  | nil => intro m h; exact h
  | cons p l ih =>
    intro m h
    simp only [List.foldl_cons]
    exact ih _ (keysOf_nodup_jsMapSet p.2 h)

theorem keysOf_jsMapOfList_nodup {α : Type} (l : List (String × α)) :
    (keysOf (jsMapOfList l)).Nodup :=
  keysOf_foldl_nodup l [] (by simp [keysOf])

theorem mem_keysOf_foldl {α : Type} :
    ∀ (l : List (String × α)) (m : List (String × α)) (a : String),
      a ∈ keysOf (l.foldl (fun m p => jsMapSet m p.1 p.2) m) ↔ a ∈ keysOf m ∨ a ∈ keysOf l := by
  intro l
  induction l with
  | nil => intro m a; simp [keysOf]
  | cons p l ih =>
    intro m a
    simp only [List.foldl_cons]
    rw [ih]
    rw [mem_keysOf_jsMapSet]
    unfold keysOf
    simp only [List.map_cons, List.mem_cons]
    tauto

theorem mem_keysOf_jsMapOfList {α : Type} (l : List (String × α)) (a : String) :
    a ∈ keysOf (jsMapOfList l) ↔ a ∈ keysOf l := by
  unfold jsMapOfList
  rw [mem_keysOf_foldl]
  simp [keysOf]

theorem mem_of_mem_jsMapSet {α : Type} {m : List (String × α)} {k : String} {v : α}
    {q : String × α} (hq : q ∈ jsMapSet m k v) : q = (k, v) ∨ (q ∈ m ∧ q.1 ≠ k) := by
  by_cases h : k ∈ keysOf m
  · rw [jsMapSet_of_mem v h] at hq
    obtain ⟨p, hp, he⟩ := List.mem_map.1 hq
    by_cases hpk : p.1 = k
    · left; rw [if_pos hpk] at he; exact he.symm
    · right; rw [if_neg hpk] at he; subst he; exact ⟨hp, hpk⟩
  · rw [jsMapSet_of_not_mem v h] at hq
    rcases List.mem_append.1 hq with hm | hs
    · right
      refine ⟨hm, ?_⟩
      intro hk
      exact h (List.mem_map.2 ⟨q, hm, hk⟩)
    · left; simpa using hs

theorem jsMapOfList_concat {α : Type} (l : List (String × α)) (p : String × α) :
    jsMapOfList (l ++ [p]) = jsMapSet (jsMapOfList l) p.1 p.2 := by
  unfold jsMapOfList
  rw [List.foldl_append]
  rfl

theorem mem_jsMapOfList_last {α : Type} (l : List (String × α)) :
    ∀ q ∈ jsMapOfList l, ∃ u w, l = u ++ q :: w ∧ ∀ p ∈ w, p.1 ≠ q.1 := by
  induction l using List.reverseRecOn with
  | nil => intro q hq; simp [jsMapOfList, List.foldl_nil] at hq
  | append_singleton l p ih =>
    intro q hq
    rw [jsMapOfList_concat] at hq
    rcases mem_of_mem_jsMapSet hq with h | ⟨hm, hne⟩
    · refine ⟨l, [], ?_, by simp⟩
      rw [h]
    · obtain ⟨u, w, hl, hw⟩ := ih q hm
      refine ⟨u, w ++ [p], by simp [hl], ?_⟩
      intro r hr
      rcases List.mem_append.1 hr with h | h
      · exact hw r h
      · simp only [List.mem_singleton] at h
        subst h
        exact Ne.symm hne

theorem mem_of_mem_jsMapOfList {α : Type} {l : List (String × α)} {q : String × α}
    (hq : q ∈ jsMapOfList l) : q ∈ l := by
  obtain ⟨u, w, hl, _⟩ := mem_jsMapOfList_last l q hq
  rw [hl]
  simp

/-! ## Lemmas about the merger and validator -/

theorem toFieldInput_validateFieldType (field : FieldInput) :
    (validateFieldType field).toFieldInput = field := by
  unfold validateFieldType
  cases fieldTypeValidation field.type with
  | none => rfl
  | some pattern => by_cases h : pattern field.replacement <;> simp [h]

theorem replacement_of_mem_pairs {fields : List FieldInput} {q : String × FieldInput}
    (hq : q ∈ jsMapOfList (fields.map (fun f => (f.replacement, f)))) :
    q.2.replacement = q.1 ∧ q.2 ∈ fields := by
  have hql := mem_of_mem_jsMapOfList hq
  obtain ⟨f, hf, he⟩ := List.mem_map.1 hql
  constructor
  · rw [← he]
  · rw [← he]; exact hf

theorem uniqueFieldsOf_replacement_nodup (fields : List FieldInput) :
    ((uniqueFieldsOf fields).map (fun f => f.replacement)).Nodup := by
  unfold uniqueFieldsOf
  rw [List.map_map]
  have : ((jsMapOfList (fields.map (fun f => (f.replacement, f)))).map
      (fun q => q.2.replacement)) = keysOf (jsMapOfList (fields.map (fun f => (f.replacement, f)))) := by
    apply List.map_congr_left
    intro q hq
    exact (replacement_of_mem_pairs hq).1
  rw [show ((fun f => f.replacement) ∘ Prod.snd : String × FieldInput → String) =
    (fun q => q.2.replacement) from rfl]
  rw [this]
  exact keysOf_jsMapOfList_nodup _

theorem mem_uniqueFieldsOf_of_mem {fields : List FieldInput} {f : FieldInput}
    (hf : f ∈ fields) : ∃ g ∈ uniqueFieldsOf fields, g.replacement = f.replacement := by
  have hk : f.replacement ∈ keysOf (jsMapOfList (fields.map (fun x => (x.replacement, x)))) := by
    rw [mem_keysOf_jsMapOfList]
    unfold keysOf
    rw [List.map_map]
    exact List.mem_map.2 ⟨f, hf, rfl⟩
  obtain ⟨q, hq, he⟩ := List.mem_map.1 hk
  refine ⟨q.2, List.mem_map.2 ⟨q, hq, rfl⟩, ?_⟩
  rw [(replacement_of_mem_pairs hq).1, he]

theorem mem_uniqueFieldsOf_last {fields : List FieldInput} {v : FieldInput}
    (hv : v ∈ uniqueFieldsOf fields) :
    ∃ u w, fields = u ++ v :: w ∧ ∀ f ∈ w, f.replacement ≠ v.replacement := by
  obtain ⟨q, hq, he⟩ := List.mem_map.1 hv
  obtain ⟨u', w', hl, hw⟩ := mem_jsMapOfList_last _ q hq
  obtain ⟨u, lw, hu, hmu, hml⟩ := List.map_eq_append_iff.1 hl
  obtain ⟨f, w, hlw, hfq, hmw⟩ := List.map_eq_cons_iff.1 hml
  have hfv : f = v := by
    rw [← he, ← hfq]
  refine ⟨u, w, ?_, ?_⟩
  · rw [hu, hlw, hfv]
  · intro g hg
    have : (g.replacement, g) ∈ w' := by
      rw [← hmw]
      exact List.mem_map.2 ⟨g, hg, rfl⟩
    have hne := hw _ this
    have hq1 : q.1 = v.replacement := by
      rw [← (replacement_of_mem_pairs hq).1, he]
    rw [hq1] at hne
    exact hne

theorem validateFields_eq_map (fields : List FieldInput) :
    validateFields fields = (uniqueFieldsOf fields).map (fun field =>
      { toValidatedField := validateFieldType field
        relationships :=
          (((uniqueFieldsOf fields).filter (fun f => decide (f ≠ field))).filter
            (fun f => relatedAnchors field.replacement f.replacement)).map (fun f => f.name) }) := by
  unfold validateFields
  apply List.map_congr_left
  intro field _
  have hif : ∀ rel : List String, (if rel.length > 0 then rel else []) = rel := by
    intro rel; cases rel <;> simp
  simp only [hif]

theorem validateFields_map_replacement (fields : List FieldInput) :
    (validateFields fields).map (fun g => g.replacement) =
      (uniqueFieldsOf fields).map (fun f => f.replacement) := by
  rw [validateFields_eq_map, List.map_map]
  apply List.map_congr_left
  intro f _
  show (validateFieldType f).toFieldInput.replacement = f.replacement
  rw [toFieldInput_validateFieldType]

/-- Claim C1: merging per-chunk candidate lists yields one field per distinct
replacement anchor (replacements are pairwise distinct and every candidate's
anchor is represented), and each merged field carries exactly the candidate
data of the last candidate in flattened chunk order with its anchor. -/
theorem merge_dedup_last_write_wins (results : List (List FieldInput)) :
    (((mergeFieldResults results).map (fun g => g.replacement)).Nodup)
    ∧ (∀ f ∈ results.flatten, ∃ g ∈ mergeFieldResults results, g.replacement = f.replacement)
    ∧ (∀ g ∈ mergeFieldResults results, ∃ u f w, results.flatten = u ++ f :: w ∧
        g.toValidatedField.toFieldInput = f ∧ ∀ f2 ∈ w, f2.replacement ≠ f.replacement) := by
  refine ⟨?_, ?_, ?_⟩
  · show ((validateFields results.flatten).map (fun g => g.replacement)).Nodup
    rw [validateFields_map_replacement]
    exact uniqueFieldsOf_replacement_nodup _
  · intro f hf
    obtain ⟨g, hg, he⟩ := mem_uniqueFieldsOf_of_mem hf
    show ∃ g2 ∈ validateFields results.flatten, g2.replacement = f.replacement
    rw [validateFields_eq_map]
    refine ⟨_, List.mem_map.2 ⟨g, hg, rfl⟩, ?_⟩
    show (validateFieldType g).toFieldInput.replacement = f.replacement
    rw [toFieldInput_validateFieldType]
    exact he
  · intro g hg
    rw [show mergeFieldResults results = validateFields results.flatten from rfl,
      validateFields_eq_map] at hg
    obtain ⟨v, hv, he⟩ := List.mem_map.1 hg
    obtain ⟨u, w, hl, hw⟩ := mem_uniqueFieldsOf_last hv
    refine ⟨u, v, w, hl, ?_, hw⟩
    rw [← he]
    exact toFieldInput_validateFieldType v

/-- Witness for C1 at a concrete input: two candidates from different chunks
share the anchor "X:", and a merged field with that anchor exists. -/
theorem merge_dedup_last_write_wins_witness :
    ∃ g ∈ mergeFieldResults [[exDupEarlier], [exDupLater]],
      g.replacement = exDupLater.replacement :=
  (merge_dedup_last_write_wins [[exDupEarlier], [exDupLater]]).2.1 exDupLater (by decide)

/-! ## Fail-fast join of the extraction batch -/

theorem promiseAll_error {ε α : Type} :
    ∀ (l : List (Except ε α)) (e : ε), Except.error e ∈ l →
      ∃ e2, promiseAll l = Except.error e2 := by
  intro l
  induction l with
  | nil => intro e he; simp at he
  | cons x xs ih =>
    intro e he
    rcases List.mem_cons.1 he with h | h
    · exact ⟨e, by simp [promiseAll, ← h]⟩
    · obtain ⟨e2, he2⟩ := ih e h
      cases x with
      | error e3 => exact ⟨e3, rfl⟩
      | ok a => exact ⟨e2, by simp [promiseAll, he2, Except.map]⟩

/-- Claim C2: if the extraction capability fails on any one produced chunk,
the whole analysis fails with the single server error response (HTTP 500) and
no field list is returned. -/
theorem analysis_fail_fast (extract : List Char → Except String (List FieldInput))
    (documentText chunk : List Char) (e : String)
    (hc : chunk ∈ splitDocumentIntoChunks (preprocessDocument documentText))
    (he : extract chunk = Except.error e) :
    postAnalyze extract documentText = AnalyzeResponse.err "Failed to analyze document" 500 := by
  have hne : documentText.isEmpty = false := by
    cases hdt : documentText.isEmpty
    · rfl
    · exfalso
      have h0 : documentText = [] := by
        cases documentText
        · rfl
        · simp [List.isEmpty] at hdt
      rw [h0] at hc
      have hch : splitDocumentIntoChunks (preprocessDocument []) = [] := by decide
      rw [hch] at hc
      simp at hc
  have hmem : Except.error e ∈ (splitDocumentIntoChunks (preprocessDocument documentText)).map extract := by
    rw [← he]
    exact List.mem_map_of_mem extract hc
  obtain ⟨e2, he2⟩ := promiseAll_error _ e hmem
  unfold postAnalyze
  rw [hne]
  simp only [Bool.false_eq_true, if_false, he2]

/-- Witness for C2 at a concrete input: a one-chunk document whose extraction
fails yields the server error response. -/
theorem analysis_fail_fast_witness :
    postAnalyze exExtractFail "Hi.".data = AnalyzeResponse.err "Failed to analyze document" 500 :=
  analysis_fail_fast exExtractFail "Hi.".data "Hi.".data "boom" (by decide) rfl

/-! ## Injection guard (field-application session) -/

/-- Claim C8: on a fresh session, the first application performs the injection
and sets the guard, and an immediate second application reports the
already-applied outcome and leaves state (in particular content) unchanged. -/
theorem apply_guard_idempotent (fields : List IdentifiedField) (st : SessionState)
    (hf : fields ≠ []) (hg : st.placeholdersApplied = false) :
    (applyPlaceholdersSession fields st).1 = "Placeholders Applied"
    ∧ (applyPlaceholdersSession fields st).2.content = applyPlaceholdersOptimized st.content fields
    ∧ (applyPlaceholdersSession fields st).2.placeholdersApplied = true
    ∧ (applyPlaceholdersSession fields ((applyPlaceholdersSession fields st).2)).1 =
        "Placeholders Already Applied"
    ∧ (applyPlaceholdersSession fields ((applyPlaceholdersSession fields st).2)).2 =
        (applyPlaceholdersSession fields st).2 := by
  have hlen : ¬ fields.length = 0 := by
    intro h0
    exact hf (List.length_eq_zero.1 h0)
  unfold applyPlaceholdersSession
  rw [if_neg hlen, hg]
  simp [hf]

/-- Witness for C8 at a concrete input. -/
theorem apply_guard_idempotent_witness :
    (applyPlaceholdersSession [exFullNameField] exSession).1 = "Placeholders Applied" :=
  (apply_guard_idempotent [exFullNameField] exSession (by decide) rfl).1

/-! ## Empty-field-list injection -/

theorem scanGo_empty_alts (l : List Char) :
    scanGo [(([] : List Char), ([] : List Char))] (l.length + 1) l = claimSpacedBoundaries l := by
  induction l with
  | nil => rfl
  | cons c cs ih =>
    show ' ' :: ([] ++ (c :: scanGo [(([] : List Char), ([] : List Char))] (cs.length + 1) cs)) =
      claimSpacedBoundaries (c :: cs)
    rw [List.nil_append, ih]
    rfl

theorem claimSpacedBoundaries_length (l : List Char) :
    (claimSpacedBoundaries l).length = 2 * l.length + 1 := by
  induction l with
  | nil => rfl
  | cons c cs ih =>
    show (' ' :: c :: claimSpacedBoundaries cs).length = 2 * (c :: cs).length + 1
    simp [ih]
    omega

set_option linter.unusedVariables false in
/-- Claim C10: injecting with an empty field list does not leave the content
unchanged; the empty alternation matches the empty string at every position,
so one space is inserted at every character boundary. -/
theorem empty_fields_injection (content : List Char) (hne : content ≠ []) :
    applyPlaceholdersOptimized content [] = claimSpacedBoundaries content
    ∧ applyPlaceholdersOptimized content [] ≠ content := by
  have he : applyPlaceholdersOptimized content [] = claimSpacedBoundaries content :=
    scanGo_empty_alts content
  refine ⟨he, ?_⟩
  rw [he]
  intro hc
  have hl := congrArg List.length hc
  rw [claimSpacedBoundaries_length] at hl
  omega

/-- Witness for C10 at a concrete input. -/
theorem empty_fields_injection_witness :
    applyPlaceholdersOptimized "abc".data [] = claimSpacedBoundaries "abc".data
    ∧ applyPlaceholdersOptimized "abc".data [] ≠ "abc".data :=
  empty_fields_injection "abc".data (by decide)

/-! ## Chunk-length bound -/

theorem jsTrimL_length_le (l : List Char) : (jsTrimL l).length ≤ l.length := by
  unfold jsTrimL
  rw [List.length_reverse]
  calc ((l.dropWhile jsSpace).reverse.dropWhile jsSpace).length
      ≤ (l.dropWhile jsSpace).reverse.length := (List.dropWhile_suffix _).length_le
    _ = (l.dropWhile jsSpace).length := List.length_reverse _
    _ ≤ l.length := (List.dropWhile_suffix _).length_le

theorem buildChunksGo_bound (sents0 : List (List Char)) :
    ∀ (sents : List (List Char)) (current : List Char) (chunks : List (List Char)),
      (∀ s ∈ sents, s ∈ sents0) →
      (current.length ≤ CHUNK_SIZE ∨ ∃ s ∈ sents0, CHUNK_SIZE < s.length ∧ current = s) →
      (∀ c ∈ chunks, c.length ≤ CHUNK_SIZE ∨ ∃ s ∈ sents0, CHUNK_SIZE < s.length ∧ c = jsTrimL s) →
      ∀ c ∈ buildChunksGo sents current chunks,
        c.length ≤ CHUNK_SIZE ∨ ∃ s ∈ sents0, CHUNK_SIZE < s.length ∧ c = jsTrimL s := by
  intro sents
  induction sents with
  | nil =>
    intro current chunks _ hcur hchunks c hc
    unfold buildChunksGo at hc
    by_cases hne : current ≠ []
    · rw [if_pos hne] at hc
      rcases List.mem_append.1 hc with h | h
      · exact hchunks c h
      · simp only [List.mem_singleton] at h
        subst h
        rcases hcur with h | ⟨s, hs, hlen, he⟩
        · exact Or.inl (le_trans (jsTrimL_length_le _) h)
        · exact Or.inr ⟨s, hs, hlen, by rw [he]⟩
    · rw [if_neg hne] at hc
      exact hchunks c hc
  | cons s rest ih =>
    intro current chunks hsub hcur hchunks c hc
    unfold buildChunksGo at hc
    by_cases hflush : (current ++ s).length > CHUNK_SIZE
    · rw [if_pos hflush] at hc
      refine ih s (if current ≠ [] then chunks ++ [jsTrimL current] else chunks)
        (fun x hx => hsub x (List.mem_cons_of_mem _ hx)) ?_ ?_ c hc
      · by_cases hbig : CHUNK_SIZE < s.length
        · exact Or.inr ⟨s, hsub s (List.mem_cons_self _ _), hbig, rfl⟩
        · exact Or.inl (Nat.le_of_not_lt hbig)
      · by_cases hne : current ≠ []
        · rw [if_pos hne]
          intro x hx
          rcases List.mem_append.1 hx with h | h
          · exact hchunks x h
          · simp only [List.mem_singleton] at h
            subst h
            rcases hcur with h | ⟨t, ht, hlen, he⟩
            · exact Or.inl (le_trans (jsTrimL_length_le _) h)
            · exact Or.inr ⟨t, ht, hlen, by rw [he]⟩
        · rw [if_neg hne]
          exact hchunks
    · rw [if_neg hflush] at hc
      exact ih (current ++ s) chunks (fun x hx => hsub x (List.mem_cons_of_mem _ hx))
        (Or.inl (Nat.le_of_not_lt hflush)) hchunks c hc

/-- Claim C9: every produced chunk is within the chunk-size limit, except that
a chunk may be the (trimmed) copy of a single sentence that itself exceeds the
limit. -/
theorem chunk_length_bounded (text c : List Char) (hc : c ∈ splitDocumentIntoChunks text) :
    c.length ≤ CHUNK_SIZE ∨ ∃ s ∈ sentencesOf text, CHUNK_SIZE < s.length ∧ c = jsTrimL s := by
  unfold splitDocumentIntoChunks at hc
  refine buildChunksGo_bound (sentencesOf text) (sentencesOf text) [] [] (fun s hs => hs)
    (Or.inl ?_) (by intro x hx; simp at hx) c hc
  simp [CHUNK_SIZE]

/-- Witness for C9 at a concrete input. -/
theorem chunk_length_bounded_witness :
    "Hi.".data ∈ splitDocumentIntoChunks "Hi.".data
    ∧ ("Hi.".data.length ≤ CHUNK_SIZE
        ∨ ∃ s ∈ sentencesOf "Hi.".data, CHUNK_SIZE < s.length ∧ "Hi.".data = jsTrimL s) :=
  ⟨by decide, chunk_length_bounded "Hi.".data "Hi.".data (by decide)⟩

/-! ## Chunk concatenation -/

theorem dropWhile_dropWhile (p : Char → Bool) (l : List Char) :
    (l.dropWhile p).dropWhile p = l.dropWhile p := by
  induction l with
  | nil => rfl
  | cons c cs ih =>
    by_cases h : p c
    · simp [List.dropWhile_cons, h, ih]
    · simp [List.dropWhile_cons, h]

theorem not_head_of_dropWhile_eq (p : Char → Bool) (c : Char) (x : List Char)
    (h : (c :: x).dropWhile p = c :: x) : p c = false := by
  by_cases hp : p c = true
  · exfalso
    rw [List.dropWhile_cons, if_pos hp] at h
    have hlen := congrArg List.length h
    have hle := (List.dropWhile_suffix p (l := x)).length_le
    simp at hlen
    omega
  · simpa using hp

theorem jsTrimL_prefix_decomp (l : List Char) :
    l.dropWhile jsSpace =
      jsTrimL l ++ ((l.dropWhile jsSpace).reverse.takeWhile jsSpace).reverse := by
  unfold jsTrimL
  conv_lhs => rw [← List.reverse_reverse (l.dropWhile jsSpace),
    ← List.takeWhile_append_dropWhile jsSpace (l.dropWhile jsSpace).reverse]
  rw [List.reverse_append]

theorem jsTrimL_dropWhile_eq (l : List Char) :
    (jsTrimL l).dropWhile jsSpace = jsTrimL l := by
  cases hjt : jsTrimL l with
  | nil => simp
  | cons c x =>
    have hAd : (l.dropWhile jsSpace).dropWhile jsSpace = l.dropWhile jsSpace :=
      dropWhile_dropWhile _ _
    rw [jsTrimL_prefix_decomp l, hjt, List.cons_append] at hAd
    have hc := not_head_of_dropWhile_eq jsSpace c _ hAd
    rw [List.dropWhile_cons, hc]
    simp

theorem jsTrimL_idem (l : List Char) : jsTrimL (jsTrimL l) = jsTrimL l := by
  show (((jsTrimL l).dropWhile jsSpace).reverse.dropWhile jsSpace).reverse = jsTrimL l
  rw [jsTrimL_dropWhile_eq]
  rw [show (jsTrimL l).reverse = (l.dropWhile jsSpace).reverse.dropWhile jsSpace from by
    unfold jsTrimL; rw [List.reverse_reverse]]
  rw [dropWhile_dropWhile]
  unfold jsTrimL
  rfl

theorem jsTrimL_of_normalized {text : List Char} (h : preprocessDocument text = text) :
    jsTrimL text = text := by
  have hi : jsTrimL (preprocessDocument text) = preprocessDocument text := jsTrimL_idem _
  rw [h] at hi
  exact hi

theorem buildChunksGo_no_flush :
    ∀ (sents : List (List Char)) (current : List Char) (chunks : List (List Char)),
      (current ++ sents.flatten).length ≤ CHUNK_SIZE →
      buildChunksGo sents current chunks =
        chunks ++ (if current ++ sents.flatten = [] then []
          else [jsTrimL (current ++ sents.flatten)]) := by
  intro sents
  induction sents with
  | nil =>
    intro current chunks _
    unfold buildChunksGo
    cases current with
    | nil => simp
    | cons c cs => simp
  | cons s rest ih =>
    intro current chunks h
    unfold buildChunksGo
    have hle : (current ++ s).length ≤ CHUNK_SIZE := by
      rw [List.length_append] at h ⊢
      rw [List.flatten_cons, List.length_append] at h
      omega
    rw [if_neg (Nat.not_lt.2 hle)]
    rw [ih (current ++ s) chunks (by rw [List.append_assoc]; exact h)]
    rw [List.append_assoc]
    rfl

/-- Claim C3 (amended): when the normalized text is fully covered by the
sentence matches and fits within one chunk, the concatenation of the produced
chunks reconstructs the normalized input. -/
theorem chunker_reconstructs (text : List Char)
    (hnorm : preprocessDocument text = text)
    (hcover : (sentencesOf text).flatten = text)
    (hfit : text.length ≤ CHUNK_SIZE) :
    (splitDocumentIntoChunks text).flatten = text := by
  unfold splitDocumentIntoChunks
  rw [buildChunksGo_no_flush (sentencesOf text) [] []
    (by rw [List.nil_append, hcover]; exact hfit)]
  rw [List.nil_append, List.nil_append, hcover]
  by_cases ht : text = []
  · rw [if_pos ht, ht]
    rfl
  · rw [if_neg ht]
    show jsTrimL text ++ [].flatten = text
    rw [jsTrimL_of_normalized hnorm]
    simp

/-- Witness for the amended C3 at a concrete input. -/
theorem chunker_reconstructs_witness :
    (splitDocumentIntoChunks "Hi. Go.".data).flatten = "Hi. Go.".data :=
  chunker_reconstructs "Hi. Go.".data (by decide) (by decide) (by decide)

/-- Counterexample to C3 as stated: the document "Hello. World" is normalized,
no sentence exceeds the limit, yet joining the chunks drops the text after the
final sentence terminator. -/
theorem chunker_drops_tail_counterexample :
    preprocessDocument "Hello. World".data = "Hello. World".data
    ∧ (∀ s ∈ sentencesOf "Hello. World".data, s.length ≤ CHUNK_SIZE)
    ∧ (splitDocumentIntoChunks "Hello. World".data).flatten ≠ "Hello. World".data :=
  ⟨by decide, by decide, by decide⟩

/-! ## Validator confidence -/

theorem mem_validateFields_elim {fields : List FieldInput} {g : IdentifiedField}
    (hg : g ∈ validateFields fields) :
    ∃ f ∈ uniqueFieldsOf fields, g.toValidatedField = validateFieldType f := by
  rw [validateFields_eq_map] at hg
  obtain ⟨f, hf, he⟩ := List.mem_map.1 hg
  exact ⟨f, hf, by rw [← he]⟩

theorem confidence_of_pattern {f : FieldInput} {test : String → Bool}
    (hp : fieldTypeValidation f.type = some test) :
    ((validateFieldType f).confidence = "high" ↔ test f.replacement = true)
    ∧ ((validateFieldType f).confidence = "high" ∨ (validateFieldType f).confidence = "low") := by
  cases hm : test f.replacement with
  | true => simp [validateFieldType, hp, hm]
  | false => simp [validateFieldType, hp, hm]

theorem confidence_of_no_pattern {f : FieldInput} (hp : fieldTypeValidation f.type = none) :
    (validateFieldType f).confidence = "high" := by
  unfold validateFieldType
  rw [hp]

/-- Claim C4 (amended): a merged field's confidence is high exactly when its
type's pattern accepts the whole replacement text (pattern-less types are
always high); in particular both example email anchors — with and without the
address — are low, because the anchored pattern never accepts a replacement
that contains the label and its space. -/
theorem validator_confidence (fields : List FieldInput) (g : IdentifiedField)
    (hg : g ∈ validateFields fields) :
    (g.type = "email" → (g.confidence = "high" ↔ emailTest g.replacement = true))
    ∧ (g.type = "date" → (g.confidence = "high" ↔ dateTest g.replacement = true))
    ∧ (g.type = "phone" → (g.confidence = "high" ↔ phoneTest g.replacement = true))
    ∧ (g.type = "number" → (g.confidence = "high" ↔ numberTest g.replacement = true))
    ∧ (g.type = "address" → (g.confidence = "high" ↔ addressTest g.replacement = true))
    ∧ (fieldTypeValidation g.type = none → g.confidence = "high")
    ∧ (g.confidence = "high" ∨ g.confidence = "low") := by
  obtain ⟨f, hf, he⟩ := mem_validateFields_elim hg
  have hty : g.type = f.type := by
    show g.toValidatedField.toFieldInput.type = f.type
    rw [he, toFieldInput_validateFieldType]
  have hrep : g.replacement = f.replacement := by
    show g.toValidatedField.toFieldInput.replacement = f.replacement
    rw [he, toFieldInput_validateFieldType]
  have hconf : g.confidence = (validateFieldType f).confidence := by
    show g.toValidatedField.confidence = _
    rw [he]
  rw [hty, hrep, hconf]
  refine ⟨?_, ?_, ?_, ?_, ?_, ?_, ?_⟩
  · intro h
    exact (confidence_of_pattern (by rw [h]; rfl)).1
  · intro h
    exact (confidence_of_pattern (by rw [h]; rfl)).1
  · intro h
    exact (confidence_of_pattern (by rw [h]; rfl)).1
  · intro h
    exact (confidence_of_pattern (by rw [h]; rfl)).1
  · intro h
    exact (confidence_of_pattern (by rw [h]; rfl)).1
  · intro h
    exact confidence_of_no_pattern h
  · cases hp : fieldTypeValidation f.type with
    | some test => exact (confidence_of_pattern hp).2
    | none => exact Or.inl (confidence_of_no_pattern hp)

/-- Witness for the amended C4 at a concrete input: the validated at-less
email field is a member of the output and its confidence obeys the email
pattern rule. -/
theorem validator_confidence_witness :
    exEmailNoAtOut ∈ validateFields [exEmailNoAt]
    ∧ (exEmailNoAtOut.confidence = "high" ↔ emailTest exEmailNoAtOut.replacement = true) :=
  ⟨by decide, (validator_confidence [exEmailNoAt] exEmailNoAtOut (by decide)).1 (by decide)⟩

/-- Counterexample to C4 as stated: the anchor with the label and a real
address is assigned low confidence, not high — the anchored email pattern
rejects any replacement containing a space, although it accepts the bare
address. -/
theorem email_label_anchor_counterexample :
    (validateFields [exEmailLabeled]).map (fun g => g.confidence) = ["low"]
    ∧ ("low" : String) ≠ "high"
    ∧ emailTest "Email: john@example.com" = false
    ∧ emailTest "john@example.com" = true
    ∧ (validateFields [exEmailNoAt]).map (fun g => g.confidence) = ["low"] := by
  decide

/-! ## Relationship linking -/

theorem jsSetListGo_mem {α : Type} [DecidableEq α] :
    ∀ (fuel : Nat) (l : List α), l.length ≤ fuel → ∀ x, (x ∈ jsSetListGo fuel l ↔ x ∈ l) := by
  intro fuel
  induction fuel with
  | zero =>
    intro l h x
    have h0 : l = [] := List.length_eq_zero.1 (Nat.le_zero.1 h)
    subst h0
    exact Iff.rfl
  | succ fuel ih =>
    intro l h x
    cases l with
    | nil => simp [jsSetListGo]
    | cons a xs =>
      show x ∈ a :: jsSetListGo fuel (xs.filter (fun y => decide (y ≠ a))) ↔ x ∈ a :: xs
      have hlen : (xs.filter (fun y => decide (y ≠ a))).length ≤ fuel := by
        have h2 := List.length_filter_le (fun y => decide (y ≠ a)) xs
        simp only [List.length_cons] at h
        omega
      rw [List.mem_cons, List.mem_cons, ih _ hlen x]
      constructor
      · rintro (rfl | hx)
        · exact Or.inl rfl
        · exact Or.inr (List.mem_filter.1 hx).1
      · rintro (rfl | hx)
        · exact Or.inl rfl
        · by_cases hxa : x = a
          · exact Or.inl hxa
          · exact Or.inr (List.mem_filter.2 ⟨hx, by simpa using hxa⟩)

theorem jsSetListGo_nodup {α : Type} [DecidableEq α] :
    ∀ (fuel : Nat) (l : List α), l.length ≤ fuel → (jsSetListGo fuel l).Nodup := by
  intro fuel
  induction fuel with
  | zero =>
    intro l h
    have h0 : l = [] := List.length_eq_zero.1 (Nat.le_zero.1 h)
    subst h0
    exact List.nodup_nil
  | succ fuel ih =>
    intro l h
    cases l with
    | nil => exact List.nodup_nil
    | cons a xs =>
      show (a :: jsSetListGo fuel (xs.filter (fun y => decide (y ≠ a)))).Nodup
      have hlen : (xs.filter (fun y => decide (y ≠ a))).length ≤ fuel := by
        have h2 := List.length_filter_le (fun y => decide (y ≠ a)) xs
        simp only [List.length_cons] at h
        omega
      rw [List.nodup_cons]
      refine ⟨?_, ih _ hlen⟩
      intro hmem
      have hm2 := (jsSetListGo_mem fuel _ hlen a).1 hmem
      have hm3 := (List.mem_filter.1 hm2).2
      simp at hm3

theorem jsSetList_mem {α : Type} [DecidableEq α] (l : List α) (x : α) :
    x ∈ jsSetList l ↔ x ∈ l :=
  jsSetListGo_mem l.length l (le_refl _) x

theorem jsSetList_nodup {α : Type} [DecidableEq α] (l : List α) : (jsSetList l).Nodup :=
  jsSetListGo_nodup l.length l (le_refl _)

theorem contains_iff_mem (l : List (List Char)) (a : List Char) :
    l.contains a = true ↔ a ∈ l := by
  simp [List.contains]

theorem shared_count_comm (sa sb : List (List Char)) :
    ((jsSetList sa).filter (fun w => sb.contains w)).length =
      ((jsSetList sb).filter (fun w => sa.contains w)).length := by
  have h1 : ((jsSetList sa).filter (fun w => sb.contains w)).Nodup :=
    (jsSetList_nodup sa).filter _
  have h2 : ((jsSetList sb).filter (fun w => sa.contains w)).Nodup :=
    (jsSetList_nodup sb).filter _
  refine ((List.perm_ext_iff_of_nodup h1 h2).2 ?_).length_eq
  intro x
  simp only [List.mem_filter, jsSetList_mem, contains_iff_mem]
  tauto

theorem relatedAnchors_symm (a b : String) : relatedAnchors a b = relatedAnchors b a := by
  unfold relatedAnchors commonWordsCount
  rw [shared_count_comm]

theorem length_validateFields (fields : List FieldInput) :
    (validateFields fields).length = (uniqueFieldsOf fields).length := by
  rw [validateFields_eq_map, List.length_map]

theorem validateFields_get (fields : List FieldInput) (i : Nat)
    (hi : i < (validateFields fields).length) :
    (validateFields fields).get ⟨i, hi⟩ =
      (fun field =>
        ({ toValidatedField := validateFieldType field
           relationships :=
             (((uniqueFieldsOf fields).filter (fun f => decide (f ≠ field))).filter
               (fun f => relatedAnchors field.replacement f.replacement)).map
              (fun f => f.name) } : IdentifiedField))
        ((uniqueFieldsOf fields).get ⟨i, by rw [← length_validateFields]; exact hi⟩) := by
  simp only [validateFields_eq_map, List.get_eq_getElem, List.getElem_map]

theorem mem_relationships_iff (fields : List FieldInput) (i j : Nat)
    (hi : i < (validateFields fields).length) (hj : j < (validateFields fields).length)
    (hij : i ≠ j)
    (hnames : ((uniqueFieldsOf fields).map (fun f => f.name)).Nodup) :
    (((validateFields fields).get ⟨j, hj⟩).name ∈
        ((validateFields fields).get ⟨i, hi⟩).relationships
      ↔ relatedAnchors ((validateFields fields).get ⟨i, hi⟩).replacement
          ((validateFields fields).get ⟨j, hj⟩).replacement = true) := by
  have hi2 : i < (uniqueFieldsOf fields).length := by rw [← length_validateFields]; exact hi
  have hj2 : j < (uniqueFieldsOf fields).length := by rw [← length_validateFields]; exact hj
  have hnamej : ((validateFields fields).get ⟨j, hj⟩).name =
      ((uniqueFieldsOf fields).get ⟨j, hj2⟩).name := by
    rw [validateFields_get]
    show (validateFieldType _).toFieldInput.name = _
    rw [toFieldInput_validateFieldType]
  have hrepi : ((validateFields fields).get ⟨i, hi⟩).replacement =
      ((uniqueFieldsOf fields).get ⟨i, hi2⟩).replacement := by
    rw [validateFields_get]
    show (validateFieldType _).toFieldInput.replacement = _
    rw [toFieldInput_validateFieldType]
  have hrepj : ((validateFields fields).get ⟨j, hj⟩).replacement =
      ((uniqueFieldsOf fields).get ⟨j, hj2⟩).replacement := by
    rw [validateFields_get]
    show (validateFieldType _).toFieldInput.replacement = _
    rw [toFieldInput_validateFieldType]
  have hreli : ((validateFields fields).get ⟨i, hi⟩).relationships =
      (((uniqueFieldsOf fields).filter
          (fun f => decide (f ≠ (uniqueFieldsOf fields).get ⟨i, hi2⟩))).filter
        (fun f => relatedAnchors ((uniqueFieldsOf fields).get ⟨i, hi2⟩).replacement
          f.replacement)).map (fun f => f.name) := by
    rw [validateFields_get]
  have hUnodup : (uniqueFieldsOf fields).Nodup := List.Nodup.of_map _ hnames
  have hne : (uniqueFieldsOf fields).get ⟨j, hj2⟩ ≠ (uniqueFieldsOf fields).get ⟨i, hi2⟩ := by
    intro he
    have hfin := hUnodup.get_inj_iff.1 he
    rw [Fin.mk.injEq] at hfin
    exact hij hfin.symm
  rw [hreli, hnamej, hrepi, hrepj]
  constructor
  · intro hmem
    obtain ⟨f, hf, hfn⟩ := List.mem_map.1 hmem
    have hf2 := List.mem_filter.1 hf
    have hf3 := List.mem_filter.1 hf2.1
    have hfeq : f = (uniqueFieldsOf fields).get ⟨j, hj2⟩ :=
      List.inj_on_of_nodup_map hnames hf3.1 ((uniqueFieldsOf fields).get_mem _ _) hfn
    rw [← hfeq]
    exact hf2.2
  · intro hrel
    apply List.mem_map.2
    refine ⟨(uniqueFieldsOf fields).get ⟨j, hj2⟩, ?_, rfl⟩
    apply List.mem_filter.2
    refine ⟨List.mem_filter.2 ⟨(uniqueFieldsOf fields).get_mem _ _, ?_⟩, hrel⟩
    simpa using hne

/-- Claim C5 (amended): in a merged result with pairwise distinct field names,
field A lists field B exactly when their anchors share at least two common
tokens, where tokens are produced by splitting the lowercased anchor on runs
of non-word characters (so an empty token from a leading or trailing non-word
character also counts); the linking is symmetric. -/
theorem relationships_linking (fields : List FieldInput) (i j : Nat)
    (hi : i < (validateFields fields).length) (hj : j < (validateFields fields).length)
    (hij : i ≠ j)
    (hnames : ((uniqueFieldsOf fields).map (fun f => f.name)).Nodup) :
    (((validateFields fields).get ⟨j, hj⟩).name ∈
        ((validateFields fields).get ⟨i, hi⟩).relationships
      ↔ relatedAnchors ((validateFields fields).get ⟨i, hi⟩).replacement
          ((validateFields fields).get ⟨j, hj⟩).replacement = true)
    ∧ (((validateFields fields).get ⟨j, hj⟩).name ∈
        ((validateFields fields).get ⟨i, hi⟩).relationships
      ↔ ((validateFields fields).get ⟨i, hi⟩).name ∈
        ((validateFields fields).get ⟨j, hj⟩).relationships) := by
  refine ⟨mem_relationships_iff fields i j hi hj hij hnames, ?_⟩
  rw [mem_relationships_iff fields i j hi hj hij hnames,
    mem_relationships_iff fields j i hj hi (Ne.symm hij) hnames,
    relatedAnchors_symm]

/-- Witness for the amended C5 at a concrete input: the two contact fields are
linked, matching the shared-token test on their anchors. -/
theorem relationships_linking_witness :
    (("contact_phone" : String) ∈ (["contact_phone"] : List String)
      ↔ relatedAnchors "Contact Name:" "Contact Phone:" = true) :=
  (relationships_linking [exContactName, exContactPhone] 0 1 (by decide) (by decide)
    (by decide) (by decide)).1

/-- Counterexample to C5 as stated: the anchors "Contact Name:" and
"Contact Phone:" share only one whitespace-delimited token, yet the code links
the two fields in both directions (the split is on non-word runs and the empty
token contributed by the trailing colon counts as shared). -/
theorem whitespace_token_counterexample :
    (validateFields [exContactName, exContactPhone]).map (fun g => g.relationships) =
      [["contact_phone"], ["contact_name"]]
    ∧ specWsSharedCount "Contact Name:" "Contact Phone:" = 1 := by
  decide

/-! ## Injection scan -/

theorem startsWithL_iff (a : List Char) : ∀ l, startsWithL a l = true ↔ ∃ t, a ++ t = l := by
  induction a with
  | nil =>
    intro l
    simp [startsWithL]
  | cons x xs ih =>
    intro l
    cases l with
    | nil =>
      simp [startsWithL]
    | cons c cs =>
      show (decide (x = c) && startsWithL xs cs) = true ↔ _
      rw [Bool.and_eq_true, decide_eq_true_eq, ih cs]
      constructor
      · rintro ⟨rfl, t, rfl⟩
        exact ⟨t, rfl⟩
      · rintro ⟨t, ht⟩
        injection ht with h1 h2
        exact ⟨h1, t, h2⟩

theorem tryMatch_none {alts : List (List Char × List Char)} {l : List Char}
    (h : tryMatch alts l = none) : ∀ ap ∈ alts, ¬ ∃ t, ap.1 ++ t = l := by
  unfold tryMatch at h
  rw [List.findSome?_eq_none_iff] at h
  intro ap hap hex
  have h2 := h ap hap
  rw [if_pos ((startsWithL_iff ap.1 l).2 hex)] at h2
  exact Option.noConfusion h2

theorem tryMatch_some {alts : List (List Char × List Char)} {l a p rest : List Char}
    (h : tryMatch alts l = some (a, p, rest)) :
    (a, p) ∈ alts ∧ (∃ t, a ++ t = l) ∧ rest = l.drop a.length := by
  unfold tryMatch at h
  obtain ⟨ap, hap, he⟩ := List.exists_of_findSome?_eq_some h
  by_cases hs : startsWithL ap.1 l = true
  · rw [if_pos hs] at he
    have he2 := Option.some.inj he
    obtain ⟨h1, h2, h3⟩ : ap.1 = a ∧ ap.2 = p ∧ l.drop ap.1.length = rest := by
      refine ⟨congrArg (fun q => q.1) he2, ?_, ?_⟩
      · exact congrArg (fun q => q.2.1) he2
      · exact congrArg (fun q => q.2.2) he2
    refine ⟨?_, ?_, ?_⟩
    · rw [← h1, ← h2]
      simpa using hap
    · rw [← h1]
      exact (startsWithL_iff ap.1 l).1 hs
    · rw [← h3, h1]
  · rw [if_neg hs] at he
    exact absurd he (by simp)

theorem scanGo_injects (alts : List (List Char × List Char))
    (halts : ∀ ap ∈ alts, ap.1 ≠ []) :
    ∀ (fuel : Nat) (l : List Char), l.length < fuel →
      Injects alts l (scanGo alts fuel l) := by
  intro fuel
  induction fuel with
  | zero =>
    intro l h
    exact absurd h (Nat.not_lt_zero _)
  | succ fuel ih =>
    intro l hl
    cases htm : tryMatch alts l with
    | none =>
      cases l with
      | nil =>
        simp only [scanGo, htm]
        exact Injects.nil
      | cons c cs =>
        simp only [scanGo, htm]
        refine Injects.keep c cs _ (tryMatch_none htm) (ih cs ?_)
        simp only [List.length_cons] at hl
        omega
    | some apr =>
      obtain ⟨a, p, rest⟩ := apr
      obtain ⟨hap, ⟨t, hat⟩, hrest⟩ := tryMatch_some htm
      have hane : a ≠ [] := halts (a, p) hap
      have hae : a.isEmpty = false := by
        cases a with
        | nil => exact absurd rfl hane
        | cons x xs => rfl
      have ht : rest = t := by
        rw [hrest, ← hat, List.drop_left]
      simp only [scanGo, htm, hae, Bool.false_eq_true, if_false]
      rw [ht, ← hat]
      refine Injects.mark a p t _ hap (ih t ?_)
      have hlen := congrArg List.length hat
      rw [List.length_append] at hlen
      have hage : 1 ≤ a.length := by
        cases a with
        | nil => exact absurd rfl hane
        | cons x xs => simp
      omega

/-- Claim C7 (amended): for a non-empty field list whose anchors are all
non-empty, the injector performs one left-to-right scan: the output is the
content with a space and the matching field's placeholder appended after each
matched anchor occurrence, all other characters are copied unchanged, and no
anchor occurrence starts at an unmatched position (occurrences overlapping an
earlier match are skipped). -/
theorem injector_scan (fields : List IdentifiedField) (content : List Char)
    (hne : fields ≠ [])
    (hr : ∀ f ∈ fields, f.replacement ≠ "") :
    Injects (anchorAlternation fields) content (applyPlaceholdersOptimized content fields) := by
  have hanchor : ∀ ap ∈ anchorAlternation fields, ap.1 ≠ [] := by
    intro ap hap
    obtain ⟨q, hq, he⟩ := List.mem_map.1 hap
    obtain ⟨f, hf, hfe⟩ := List.mem_map.1 (mem_of_mem_jsMapOfList hq)
    have hq1 : q.1 = f.replacement := by rw [← hfe]
    rw [← he]
    show q.1.data ≠ []
    rw [hq1]
    intro hdata
    exact hr f hf (String.ext hdata)
  have hmapsne : anchorAlternation fields ≠ [] := by
    obtain ⟨f0, rest, rfl⟩ : ∃ f0 rest, fields = f0 :: rest := by
      cases fields with
      | nil => exact absurd rfl hne
      | cons f0 rest => exact ⟨f0, rest, rfl⟩
    have hk : f0.replacement ∈ keysOf (jsMapOfList ((f0 :: rest).map (fun f => (f.replacement, f)))) := by
      rw [mem_keysOf_jsMapOfList]
      unfold keysOf
      rw [List.map_map]
      exact List.mem_map.2 ⟨f0, List.mem_cons_self _ _, rfl⟩
    intro hcon
    unfold anchorAlternation at hcon
    rw [List.map_eq_nil_iff] at hcon
    rw [hcon] at hk
    simp [keysOf] at hk
  have hie : (anchorAlternation fields).isEmpty = false := by
    cases hal : anchorAlternation fields with
    | nil => exact absurd hal hmapsne
    | cons x xs => rfl
  show Injects (anchorAlternation fields) content
    (scanGo (if (anchorAlternation fields).isEmpty then [(([] : List Char), ([] : List Char))]
      else anchorAlternation fields) (content.length + 1) content)
  rw [hie]
  simp only [Bool.false_eq_true, if_false]
  exact scanGo_injects _ hanchor (content.length + 1) content (Nat.lt_succ_self _)

/-- Witness for the amended C7 at a concrete input. -/
theorem injector_scan_witness :
    Injects (anchorAlternation [exFullNameField]) "Full Name: ____".data
      (applyPlaceholdersOptimized "Full Name: ____".data [exFullNameField]) :=
  injector_scan [exFullNameField] "Full Name: ____".data (by decide) (by decide)

/-- Counterexample to C7 as stated: with anchors "Name:" and "Full Name:", the
content contains an occurrence of "Name:" (inside "Full Name:"), but the
output appends no placeholder after it — only the occurrence matched by the
single scan is annotated. -/
theorem nested_anchor_counterexample :
    applyPlaceholdersOptimized "Full Name: ____".data [exNameField, exFullNameField] =
      "Full Name: [[FULL_NAME]] ____".data
    ∧ "Name:".data <:+: "Full Name: ____".data
    ∧ ¬ ("Name: [[N]]".data <:+:
        applyPlaceholdersOptimized "Full Name: ____".data [exNameField, exFullNameField]) := by
  refine ⟨by decide, by decide, by decide⟩

/-! ## Document cache -/

theorem decVal_append_digit (l : List Char) (c : Char) :
    decVal (l ++ [c]) = 10 * decVal l + (c.toNat - 48) := by
  unfold decVal
  rw [List.foldl_append]
  rfl

theorem decDigitChar_toNat {d : Nat} (hd : d < 10) : (decDigitChar d).toNat = 48 + d := by
  unfold decDigitChar
  interval_cases d <;> decide

theorem decReprGo_val : ∀ (fuel n : Nat), n < fuel → decVal (decReprGo fuel n) = n := by
  intro fuel
  induction fuel with
  | zero =>
    intro n h
    exact absurd h (Nat.not_lt_zero _)
  | succ fuel ih =>
    intro n h
    unfold decReprGo
    by_cases h10 : n < 10
    · rw [if_pos h10]
      show decVal [decDigitChar n] = n
      show 10 * 0 + ((decDigitChar n).toNat - 48) = n
      rw [decDigitChar_toNat h10]
      omega
    · rw [if_neg h10]
      rw [decVal_append_digit]
      have hdiv : n / 10 < fuel := by
        have h1 : n / 10 < n := Nat.div_lt_self (by omega) (by omega)
        omega
      rw [ih (n / 10) hdiv]
      rw [decDigitChar_toNat (Nat.mod_lt n (by omega))]
      omega

theorem decRepr_val (n : Nat) : decVal (decRepr n) = n :=
  decReprGo_val (n + 1) n (Nat.lt_succ_self n)

theorem decReprGo_no_dash : ∀ (fuel n : Nat), ∀ c ∈ decReprGo fuel n, c ≠ '-' := by
  intro fuel
  induction fuel with
  | zero =>
    intro n c hc
    simp [decReprGo] at hc
  | succ fuel ih =>
    intro n c hc
    unfold decReprGo at hc
    by_cases h10 : n < 10
    · rw [if_pos h10] at hc
      simp only [List.mem_singleton] at hc
      subst hc
      unfold decDigitChar
      interval_cases n <;> decide
    · rw [if_neg h10] at hc
      rcases List.mem_append.1 hc with h | h
      · exact ih _ c h
      · simp only [List.mem_singleton] at h
        subst h
        have hmod : n % 10 < 10 := Nat.mod_lt n (by omega)
        unfold decDigitChar
        generalize n % 10 = k at hmod
        interval_cases k <;> decide

theorem takeWhile_append_of_all (p : Char → Bool) :
    ∀ (xs : List Char) (y : Char) (ys : List Char), (∀ x ∈ xs, p x = true) → p y = false →
      (xs ++ y :: ys).takeWhile p = xs := by
  intro xs
  induction xs with
  | nil =>
    intro y ys _ hy
    show (y :: ys).takeWhile p = []
    simp [List.takeWhile_cons, hy]
  | cons x xs ih =>
    intro y ys hall hy
    show ((x :: (xs ++ y :: ys)).takeWhile p) = x :: xs
    rw [List.takeWhile_cons, hall x (List.mem_cons_self _ _)]
    simp only [if_true]
    rw [ih y ys (fun z hz => hall z (List.mem_cons_of_mem _ hz)) hy]

theorem cacheKey_data (fileName : String) (n : Nat) :
    (cacheKey fileName n).data = fileName.data ++ '-' :: decRepr n := by
  unfold cacheKey
  rw [String.data_append, String.data_append, List.append_assoc]
  rfl

theorem cacheKey_inj : Function.Injective (fun q : String × Nat => cacheKey q.1 q.2) := by
  rintro ⟨n1, l1⟩ ⟨n2, l2⟩ he
  simp only at he
  have hd : n1.data ++ '-' :: decRepr l1 = n2.data ++ '-' :: decRepr l2 := by
    rw [← cacheKey_data, ← cacheKey_data, he]
  have hrev := congrArg List.reverse hd
  rw [List.reverse_append, List.reverse_append, List.reverse_cons, List.reverse_cons,
    List.append_assoc, List.append_assoc, List.singleton_append, List.singleton_append] at hrev
  have htw := congrArg (List.takeWhile (fun c => decide (c ≠ '-'))) hrev
  have hall1 : ∀ x ∈ (decRepr l1).reverse, (fun c => decide (c ≠ '-')) x = true := by
    intro x hx
    simp only [decide_eq_true_eq]
    exact decReprGo_no_dash _ _ x (List.mem_reverse.1 hx)
  have hall2 : ∀ x ∈ (decRepr l2).reverse, (fun c => decide (c ≠ '-')) x = true := by
    intro x hx
    simp only [decide_eq_true_eq]
    exact decReprGo_no_dash _ _ x (List.mem_reverse.1 hx)
  rw [takeWhile_append_of_all _ _ _ _ hall1 (by decide),
    takeWhile_append_of_all _ _ _ _ hall2 (by decide)] at htw
  have hdigits : decRepr l1 = decRepr l2 := by
    have := congrArg List.reverse htw
    rwa [List.reverse_reverse, List.reverse_reverse] at this
  have hlens : l1 = l2 := by
    rw [← decRepr_val l1, ← decRepr_val l2, hdigits]
  have hnames : n1.data = n2.data := by
    rw [hdigits] at hd
    exact List.append_cancel_right hd
  rw [Prod.mk.injEq]
  exact ⟨String.ext hnames, hlens⟩

theorem jsMapLookup_eq_none {α : Type} {m : List (String × α)} {k : String}
    (h : k ∉ keysOf m) : jsMapLookup m k = none := by
  unfold jsMapLookup
  have hf : m.find? (fun p => decide (p.1 = k)) = none := by
    rw [List.find?_eq_none]
    intro p hp
    simp only [decide_eq_true_eq]
    intro hk
    exact h (List.mem_map.2 ⟨p, hp, hk⟩)
  rw [hf]
  rfl

theorem getCachedDocument_fresh {render : List Nat → String} {cache : List (String × String)}
    {doc : List Nat} {fileName : String}
    (h : cacheKey fileName doc.length ∉ keysOf cache) :
    (getCachedDocument render cache doc fileName).2 =
      cache ++ [(cacheKey fileName doc.length,
        String.join ((splitArrayBuffer doc DOC_CHUNK_SIZE).map render))] := by
  unfold getCachedDocument
  simp only [jsMapLookup_eq_none h]
  exact jsMapSet_of_not_mem _ h

theorem foldl_getCachedDocument (render : List Nat → String) :
    ∀ (docs : List (String × List Nat)) (cache : List (String × String)),
      (keysOf cache ++ docs.map (fun p => cacheKey p.1 p.2.length)).Nodup →
      keysOf (docs.foldl (fun c p => (getCachedDocument render c p.2 p.1).2) cache) =
        keysOf cache ++ docs.map (fun p => cacheKey p.1 p.2.length) := by
  intro docs
  induction docs with
  | nil =>
    intro cache _
    simp
  | cons d rest ih =>
    intro cache h
    simp only [List.foldl_cons]
    have hsplit : (keysOf cache ++ (d :: rest).map (fun p => cacheKey p.1 p.2.length)) =
        (keysOf cache ++ [cacheKey d.1 d.2.length]) ++
          rest.map (fun p => cacheKey p.1 p.2.length) := by
      rw [List.map_cons, List.append_cons]
    have hk : cacheKey d.1 d.2.length ∉ keysOf cache := by
      intro hmem
      rw [List.map_cons] at h
      have hdis := (List.nodup_append.1 h).2.2
      exact (List.disjoint_left.1 hdis hmem) (List.mem_cons_self _ _)
    rw [getCachedDocument_fresh hk]
    rw [ih (cache ++ [(cacheKey d.1 d.2.length,
      String.join ((splitArrayBuffer d.2 DOC_CHUNK_SIZE).map render))]) ?hn]
    case hn =>
      rw [show keysOf (cache ++ [(cacheKey d.1 d.2.length,
        String.join ((splitArrayBuffer d.2 DOC_CHUNK_SIZE).map render))]) =
          keysOf cache ++ [cacheKey d.1 d.2.length] from by simp [keysOf]]
      rw [← hsplit]
      exact h
    rw [show keysOf (cache ++ [(cacheKey d.1 d.2.length,
      String.join ((splitArrayBuffer d.2 DOC_CHUNK_SIZE).map render))]) =
        keysOf cache ++ [cacheKey d.1 d.2.length] from by simp [keysOf]]
    exact hsplit.symm

theorem deleteKeys_take {α : Type} :
    ∀ (n : Nat) (m : List (String × α)), (keysOf m).Nodup →
      ((keysOf m).take n).foldl (fun c k => c.filter (fun p => decide (p.1 ≠ k))) m =
        m.drop n := by
  intro n
  induction n with
  | zero =>
    intro m _
    simp
  | succ n ih =>
    intro m h
    cases m with
    | nil => simp [keysOf]
    | cons q m2 =>
      show ((keysOf (q :: m2)).take (n + 1)).foldl _ (q :: m2) = (q :: m2).drop (n + 1)
      have hkeys : keysOf (q :: m2) = q.1 :: keysOf m2 := rfl
      rw [hkeys, List.take_succ_cons, List.foldl_cons]
      have hq1 : q.1 ∉ keysOf m2 := by
        rw [hkeys, List.nodup_cons] at h
        exact h.1
      have hdel : (q :: m2).filter (fun p => decide (p.1 ≠ q.1)) = m2 := by
        rw [List.filter_cons]
        have hcond : (decide (q.1 ≠ q.1)) = false := by simp
        rw [hcond]
        simp only [Bool.false_eq_true, if_false]
        apply List.filter_eq_self.2
        intro p hp
        simp only [decide_eq_true_eq]
        intro hpk
        exact hq1 (List.mem_map.2 ⟨p, hp, hpk⟩)
      rw [hdel]
      have h2 : (keysOf m2).Nodup := by
        rw [hkeys, List.nodup_cons] at h
        exact h.2
      exact ih m2 h2

/-- Claim C6: inserting one hundred and one pairwise distinct document
identities (file name and byte length) into the empty cache and running the
eviction routine leaves exactly fifty-one entries: the first fifty inserted
keys are evicted and the keys of the surviving entries are the last fifty-one
inserted keys, in insertion order. -/
theorem cache_eviction (render : List Nat → String) (docs : List (String × List Nat))
    (hlen : docs.length = 101)
    (hnodup : (docs.map (fun p => (p.1, p.2.length))).Nodup) :
    keysOf (documentCacheCleanup
        (docs.foldl (fun c p => (getCachedDocument render c p.2 p.1).2) [])) =
      (docs.map (fun p => cacheKey p.1 p.2.length)).drop 50
    ∧ (documentCacheCleanup
        (docs.foldl (fun c p => (getCachedDocument render c p.2 p.1).2) [])).length = 51 := by
  have hkeysnodup : (docs.map (fun p => cacheKey p.1 p.2.length)).Nodup := by
    have := hnodup.map cacheKey_inj
    rwa [List.map_map] at this
  have hfold := foldl_getCachedDocument render docs []
    (by rw [show keysOf ([] : List (String × String)) = [] from rfl, List.nil_append]
        exact hkeysnodup)
  rw [show keysOf ([] : List (String × String)) = [] from rfl, List.nil_append] at hfold
  have hflen : (docs.foldl (fun c p => (getCachedDocument render c p.2 p.1).2)
      ([] : List (String × String))).length = 101 := by
    have := congrArg List.length hfold
    rw [List.length_map] at this
    rw [show (keysOf (docs.foldl (fun c p => (getCachedDocument render c p.2 p.1).2)
      ([] : List (String × String)))).length = (docs.foldl
        (fun c p => (getCachedDocument render c p.2 p.1).2)
        ([] : List (String × String))).length from List.length_map _ _] at this
    rw [this, hlen]
  have hclean : documentCacheCleanup
      (docs.foldl (fun c p => (getCachedDocument render c p.2 p.1).2) []) =
      (docs.foldl (fun c p => (getCachedDocument render c p.2 p.1).2)
        ([] : List (String × String))).drop 50 := by
    unfold documentCacheCleanup
    rw [if_pos (by rw [hflen]; omega)]
    apply deleteKeys_take
    rw [hfold]
    exact hkeysnodup
  constructor
  · rw [hclean]
    unfold keysOf at hfold ⊢
    rw [List.map_drop, hfold]
  · rw [hclean, List.length_drop, hflen]

set_option maxRecDepth 4000 in
/-- Witness for C6 at a concrete input: one hundred and one identities sharing
a file name but with pairwise distinct byte lengths leave exactly fifty-one
entries after eviction. -/
theorem cache_eviction_witness :
    (documentCacheCleanup
      (exDocs.foldl (fun c p => (getCachedDocument exRender c p.2 p.1).2) [])).length = 51 :=
  (cache_eviction exRender exDocs (by decide) (by decide)).2
